import Mathlib

/-!
Verification of the agent layer of the ELF Mini-RTS repository
(src/rts/game_MC/ai.h): the `TrainedAI` history buffer, the rule-based
agent variants, and the `MixedAI` curriculum state machine.

Conventions of the embedding:
* C++ `int` values (`Tick`, `_latest_start`, agent ids) are modelled as `ℤ`;
  `float` (`_latest_start_decay`) is modelled as `ℚ`; `std::mt19937` draws
  are modelled as explicitly-passed `ℕ` arguments.
* Code that can crash (null-pointer dereference through `_main_ai`,
  a throwing `std::stoi`/`std::stof`, the `% 0` division) returns `Option`,
  with `none` standing for abnormal termination.
* The concrete decision logic of the rule-based heuristics and of the
  trained policy lives outside this header (ai.cc, declared out of scope by
  the spec); it is abstracted as a `RuleBehavior` record of functions over
  an opaque internal-state type `σ`.
-/

/-! ### Command-line style splitting and numeric parsing

`MixedAI::_parse` uses `CmdLineUtils::split` (engine/cmd_util.h) and
`std::stoi` / `std::stof`, none of which are under src/. -/

/-- Modelled from the spec: `CmdLineUtils::split` (engine/cmd_util.h, not
under src/) — "a single delimiter-separated string, fields separated by one
delimiter, each field a key/value pair separated by another delimiter".
Splits a character list at every occurrence of the delimiter. -/
def cmdSplitAux (d : Char) : List Char → List Char → List (List Char)
  | [], acc => [acc.reverse]
  | c :: cs, acc =>
    if c = d then acc.reverse :: cmdSplitAux d cs [] else cmdSplitAux d cs (c :: acc)

/-- Modelled from the spec: `CmdLineUtils::split` on `String`s. -/
def cmdSplit (s : String) (d : Char) : List String :=
  (cmdSplitAux d s.data []).map List.asString

/-- Numeric value of a list of decimal digit characters, most significant
first (the accumulation loop shared by the `stoi`/`stof` models). -/
def natOfDigits (l : List Char) : ℕ :=
  l.foldl (fun a c => 10 * a + (c.toNat - 48)) 0

/-- Modelled from the spec: `std::stoi` — skips leading spaces, reads an
optional sign and then the longest nonempty digit prefix; a value with no
digits makes it throw, modelled as `none`.  (Overflow of the 32-bit range,
also a throw in C++, is not modelled; every configuration exercised here is
far below it.) -/
def stoi (s : String) : Option ℤ :=
  let cs := s.data.dropWhile (fun c => c = ' ')
  let sign : Bool × List Char :=
    match cs with
    | '-' :: rest => (true, rest)
    | '+' :: rest => (false, rest)
    | _ => (false, cs)
  let ds := sign.2.takeWhile Char.isDigit
  if ds = [] then none
  else some (if sign.1 then -(natOfDigits ds : ℤ) else (natOfDigits ds : ℤ))

/-- Modelled from the spec: `std::stof` on the decimal grammar
`[sign] digits [. digits]` (the exponent forms never appear in the
configurations of this layer); the `float` value is modelled as the exact
rational it denotes.  A value with no digits at all throws, modelled as
`none`. -/
def stof (s : String) : Option ℚ :=
  let cs := s.data.dropWhile (fun c => c = ' ')
  let sign : Bool × List Char :=
    match cs with
    | '-' :: rest => (true, rest)
    | '+' :: rest => (false, rest)
    | _ => (false, cs)
  let ip := sign.2.takeWhile Char.isDigit
  let rest := sign.2.dropWhile Char.isDigit
  let fp : List Char :=
    match rest with
    | '.' :: r => r.takeWhile Char.isDigit
    | _ => []
  if ip = [] ∧ fp = [] then none
  else
    let v : ℚ := (natOfDigits ip : ℚ) + (natOfDigits fp : ℚ) / (10 : ℚ) ^ fp.length
    some (if sign.1 then -v else v)

/-! ### The circular history buffer

`TrainedAI::_recent_states` is a `CircularQueue<std::vector<float>>`
(elf/circular_queue.h, not under src/). -/

/-- Modelled from the spec: `CircularQueue` (elf/circular_queue.h, not under
src/) — "fixed-capacity circular sequence …; newest overwrites oldest once
full".  A preallocated backing store of `cap` cells, the index of the oldest
valid entry, and the number of valid entries. -/
structure CircularQueue (α : Type) where
  cap : ℕ
  v : List α
  head : ℕ
  sz : ℕ

/-- Modelled from the spec: a fresh queue of capacity `c`; every backing cell
holds the default element `x0` (the `TrainedAI` constructor clears each
backing vector, so `x0` is the empty feature vector there). -/
def CircularQueue.empty (x0 : α) (c : ℕ) : CircularQueue α :=
  { cap := c, v := List.replicate c x0, head := 0, sz := 0 }

/-- Modelled from the spec: push — writes the new element after the newest
one while the queue is not yet full, and otherwise overwrites the oldest
entry and advances the head. -/
def CircularQueue.push (q : CircularQueue α) (x : α) : CircularQueue α :=
  if q.sz < q.cap then
    { cap := q.cap, v := q.v.set ((q.head + q.sz) % q.cap) x, head := q.head, sz := q.sz + 1 }
  else
    { cap := q.cap, v := q.v.set (q.head % q.cap) x, head := (q.head + 1) % q.cap, sz := q.sz }

/-- Modelled from the spec: the exposed window — the `sz` valid entries read
from the oldest onward. -/
def CircularQueue.window (x0 : α) (q : CircularQueue α) : List α :=
  (List.range q.sz).map (fun i => q.v.getD ((q.head + i) % q.cap) x0)

/-! Helper lemmas about `List.set` / `List.getD` and modular indices. -/

theorem getD_set_self (l : List α) (i : ℕ) (a d : α) (h : i < l.length) :
    (l.set i a).getD i d = a := by
  induction l generalizing i with
  | nil => simp at h
  | cons b t ih =>
    cases i with
    | zero => rfl
    | succ j => simpa using ih j (by simpa using h)

theorem getD_set_other (l : List α) (i j : ℕ) (a d : α) (h : i ≠ j) :
    (l.set i a).getD j d = l.getD j d := by
  induction l generalizing i j with
  | nil => rfl
  | cons b t ih =>
    cases i with
    | zero =>
      cases j with
      | zero => exact absurd rfl h
      | succ k => rfl
    | succ i' =>
      cases j with
      | zero => rfl
      | succ k => simpa using ih i' k (fun hh => h (by omega))

theorem add_mod_inj {c a i j : ℕ} (hi : i < c) (hj : j < c)
    (h : (a + i) % c = (a + j) % c) : i = j := by
  have h1 : i ≡ j [MOD c] := Nat.ModEq.add_left_cancel' a h
  have h2 : i % c = j % c := h1
  rwa [Nat.mod_eq_of_lt hi, Nat.mod_eq_of_lt hj] at h2

/-- The buffer invariant tying a queue to the sequence `xs` of elements
pushed into it since creation: correct capacity and backing length, head in
range, size `min |xs| c`, and the window equal to the newest `c` pushes in
oldest-to-newest order. -/
def QInv (x0 : α) (c : ℕ) (xs : List α) (q : CircularQueue α) : Prop :=
  q.cap = c ∧ q.v.length = c ∧ q.head < c ∧ q.sz = min xs.length c ∧
    q.window x0 = xs.drop (xs.length - c)

theorem qinv_empty (x0 : α) (c : ℕ) (hc : 0 < c) :
    QInv x0 c [] (CircularQueue.empty x0 c) := by
  refine ⟨rfl, by simp [CircularQueue.empty], hc, by simp [CircularQueue.empty], ?_⟩
  simp [CircularQueue.window, CircularQueue.empty]

theorem window_push_not_full (x0 : α) (q : CircularQueue α) (x : α)
    (hlen : q.v.length = q.cap) (hsz : q.sz < q.cap) :
    (q.push x).window x0 = q.window x0 ++ [x] := by
  have hcap : 0 < q.cap := Nat.lt_of_le_of_lt (Nat.zero_le _) hsz
  rw [CircularQueue.push, if_pos hsz]
  show (List.range (q.sz + 1)).map
      (fun i => (q.v.set ((q.head + q.sz) % q.cap) x).getD ((q.head + i) % q.cap) x0)
    = q.window x0 ++ [x]
  rw [List.range_succ, List.map_append]
  congr 1
  · rw [CircularQueue.window]
    refine List.map_congr_left (fun i hi => ?_)
    have hi' : i < q.sz := List.mem_range.mp hi
    refine getD_set_other _ _ _ _ _ (fun hh => ?_)
    have : q.sz = i := add_mod_inj hsz (Nat.lt_of_lt_of_le hi' (Nat.le_of_lt hsz)) hh
    omega
  · show [(q.v.set ((q.head + q.sz) % q.cap) x).getD ((q.head + q.sz) % q.cap) x0] = [x]
    rw [getD_set_self]
    rw [hlen]
    exact Nat.mod_lt _ hcap


theorem map_range_head {β : Type} (n : ℕ) (f : ℕ → β) :
    (List.range (n + 1)).map f = f 0 :: (List.range n).map (f ∘ Nat.succ) := by
  rw [List.range_succ_eq_map, List.map_cons, List.map_map]

theorem window_push_full (x0 : α) (q : CircularQueue α) (x : α)
    (hlen : q.v.length = q.cap) (hhead : q.head < q.cap) (hsz : ¬ q.sz < q.cap)
    (hszc : q.sz = q.cap) :
    (q.push x).window x0 = (q.window x0).drop 1 ++ [x] := by
  have hcap : 0 < q.cap := Nat.lt_of_le_of_lt (Nat.zero_le _) hhead
  have hmod : q.head % q.cap = q.head := Nat.mod_eq_of_lt hhead
  obtain ⟨n, hn⟩ : ∃ n, q.cap = n + 1 := ⟨q.cap - 1, by omega⟩
  rw [CircularQueue.push, if_neg hsz]
  show (List.range q.sz).map
      (fun i => (q.v.set (q.head % q.cap) x).getD (((q.head + 1) % q.cap + i) % q.cap) x0)
    = (q.window x0).drop 1 ++ [x]
  have hidx : ∀ i : ℕ, ((q.head + 1) % q.cap + i) % q.cap = (q.head + (1 + i)) % q.cap := by
    intro i
    rw [Nat.mod_add_mod, Nat.add_assoc]
  have hr : List.range q.sz = List.range (n + 1) := by rw [hszc, hn]
  have hr2 : List.range q.cap = List.range (n + 1) := by rw [hn]
  have hwin : q.window x0
      = q.v.getD (q.head % q.cap) x0
        :: (List.range n).map (fun i => q.v.getD ((q.head + (i + 1)) % q.cap) x0) := by
    rw [CircularQueue.window, hszc, hr2, map_range_head]
    rfl
  rw [hr, List.range_succ, List.map_append, hwin, List.drop_succ_cons, List.drop_zero]
  congr 1
  · refine List.map_congr_left (fun i hi => ?_)
    have hi' : i < n := List.mem_range.mp hi
    rw [hidx i]
    have hne : q.head % q.cap ≠ (q.head + (1 + i)) % q.cap := by
      rw [hmod]
      intro hh
      have h0 : (q.head + 0) % q.cap = (q.head + (1 + i)) % q.cap := by
        rw [Nat.add_zero, hmod]
        exact hh
      have h1 := add_mod_inj hcap (by omega : 1 + i < q.cap) h0
      omega
    rw [getD_set_other _ _ _ _ _ hne, Nat.add_comm 1 i]
  · have hix : ((q.head + 1) % q.cap + n) % q.cap = q.head % q.cap := by
      rw [hidx n, show q.head + (1 + n) = q.head + q.cap from by omega, Nat.add_mod_right]
    rw [List.map_singleton, hix,
      getD_set_self _ _ _ _ (by rw [hlen]; exact Nat.mod_lt _ hcap)]

theorem drop_append_of_le {α : Type} (l l' : List α) (k : ℕ) (h : k ≤ l.length) :
    (l ++ l').drop k = l.drop k ++ l' := by
  induction l generalizing k with
  | nil =>
    have : k = 0 := by simpa using h
    simp [this]
  | cons a t ih =>
    cases k with
    | zero => simp
    | succ k' => simpa using ih k' (by simpa using h)

theorem qinv_push (x0 : α) (c : ℕ) (hc : 0 < c) (xs : List α) (q : CircularQueue α)
    (hq : QInv x0 c xs q) (x : α) : QInv x0 c (xs ++ [x]) (q.push x) := by
  obtain ⟨hcap, hlen, hhead, hsz, hwin⟩ := hq
  by_cases hfull : q.sz < q.cap
  · -- the queue still has room: the window simply grows
    have hszlt : xs.length < c := by omega
    have hw := window_push_not_full x0 q x (by omega) hfull
    refine ⟨?_, ?_, ?_, ?_, ?_⟩
    · rw [CircularQueue.push, if_pos hfull]
      exact hcap
    · rw [CircularQueue.push, if_pos hfull]
      simpa using hlen
    · rw [CircularQueue.push, if_pos hfull]
      exact hhead
    · rw [CircularQueue.push, if_pos hfull]
      show q.sz + 1 = min (xs ++ [x]).length c
      simp only [List.length_append, List.length_singleton]
      omega
    · rw [hw, hwin]
      rw [show xs.length - c = 0 from by omega, List.drop_zero,
        show (xs ++ [x]).length - c = 0 from by simp; omega, List.drop_zero]
  · -- the queue is full: the oldest entry is evicted
    have hszc : q.sz = q.cap := by omega
    have hxs : c ≤ xs.length := by omega
    have hw := window_push_full x0 q x (by omega) (by omega) hfull hszc
    refine ⟨?_, ?_, ?_, ?_, ?_⟩
    · rw [CircularQueue.push, if_neg hfull]
      exact hcap
    · rw [CircularQueue.push, if_neg hfull]
      simpa using hlen
    · rw [CircularQueue.push, if_neg hfull]
      show (q.head + 1) % q.cap < c
      rw [hcap]
      exact Nat.mod_lt _ hc
    · rw [CircularQueue.push, if_neg hfull]
      show q.sz = min (xs ++ [x]).length c
      simp only [List.length_append, List.length_singleton]
      omega
    · have hk : (xs ++ [x]).length - c = xs.length + 1 - c := by
        simp
      rw [hw, hwin, List.drop_drop, hk,
        drop_append_of_le xs [x] (xs.length + 1 - c) (by omega),
        show xs.length - c + 1 = xs.length + 1 - c from by omega]

/-- `foldl` of `push`: the queue after a whole sequence of pushes. -/
def CircularQueue.pushAll (q : CircularQueue α) (xs : List α) : CircularQueue α :=
  xs.foldl CircularQueue.push q

theorem qinv_pushAll (x0 : α) (c : ℕ) (hc : 0 < c) (xs ys : List α) (q : CircularQueue α)
    (hq : QInv x0 c xs q) : QInv x0 c (xs ++ ys) (q.pushAll ys) := by
  induction ys generalizing xs q with
  | nil => simpa [CircularQueue.pushAll] using hq
  | cons y t ih =>
    have h1 := qinv_push x0 c hc xs q hq y
    have h2 := ih (xs ++ [y]) (q.push y) h1
    simpa [CircularQueue.pushAll] using h2

/-! ### The agent capability contract

The base class `elf::AI_T` (elf/ai.h) is not under src/; its id/state
plumbing is modelled from the spec: `SetId` / `SetState` are one-time
bindings (`AgentId`/state reference "bound exactly once", an attempted
re-binding being a configuration error with no further specified effect,
modelled as a no-op), and `Act`/`GameEnd` dispatch to the virtual
`on_act`/`GameEnd` bodies that src/rts/game_MC/ai.h overrides. -/

/-- Which concrete class a sub-agent was instantiated from. -/
inductive AIKind where
  | simple
  | hitAndRun
  | lua
  | generic
  deriving DecidableEq

/-- The decision logic of one agent variant, out of scope for the spec
(defined in ai.cc): an opaque internal state together with the `on_act` and
`GameEnd` bodies, each returning the boolean outcome and the next internal
state. -/
structure RuleBehavior (σ : Type) where
  init : σ
  act : σ → ℤ → Bool × σ
  onEnd : σ → ℤ → Bool × σ

/-- A sub-agent owned by `MixedAI` (an `elf::AI_T` object): its class tag,
the spec-modelled id and game-state bindings, and its behaviour. -/
structure AI (σ : Type) where
  kind : AIKind
  id : Option ℤ
  st : Option ℤ
  internal : σ
  actF : σ → ℤ → Bool × σ
  endF : σ → ℤ → Bool × σ

/-- Modelled from the spec: `AI_T::SetId` — "one-time identity binding,
idempotent no-op if called again with the same id, otherwise a configuration
error" (the error case has no specified effect; modelled as leaving the
binding unchanged). -/
def AI.SetId (a : AI σ) (i : ℤ) : AI σ :=
  match a.id with
  | none => { a with id := some i }
  | some _ => a

/-- Modelled from the spec: `AI_T::SetState` — one-time binding of the
shared, non-owned game-state reference (the reference itself is opaque and
modelled as an integer address). -/
def AI.SetState (a : AI σ) (s : ℤ) : AI σ :=
  match a.st with
  | none => { a with st := some s }
  | some _ => a

/-- `SimpleAI(opt)` — the simple rule-based variant (its heuristic `on_act`
lives in ai.cc and is abstracted as `b`). -/
def SimpleAI (b : RuleBehavior σ) : AI σ :=
  { kind := AIKind.simple, id := none, st := none,
    internal := b.init, actF := b.act, endF := b.onEnd }

/-- `HitAndRunAI(opt)` — the hit-and-run rule-based variant. -/
def HitAndRunAI (b : RuleBehavior σ) : AI σ :=
  { kind := AIKind.hitAndRun, id := none, st := none,
    internal := b.init, actF := b.act, endF := b.onEnd }

/-- `LuaAI(opt)` — the Lua rule-based variant (declared in the header; the
`MixedAI` constructor never instantiates it). -/
def LuaAI (b : RuleBehavior σ) : AI σ :=
  { kind := AIKind.lua, id := none, st := none,
    internal := b.init, actF := b.act, endF := b.onEnd }

/-! ### TrainedAI

`TrainedAI` keeps a `CircularQueue<std::vector<float>>` of feature vectors.
Its member bodies (`compute_state`, `extract`, `handle_response`) are
declared in the header but defined in ai.cc, which is not under src/; they
are modelled from the spec.  A feature vector is a `List ℚ`; the pure
derivation `compute_state` is abstracted as a function `f` from the opaque
game state `γ`. -/

structure TrainedAI (γ : Type) where
  _respect_fow : Bool
  _recent_states : CircularQueue (List ℚ)

/-- `TrainedAI(opt)` — capacity is the configured frame count
(`opt.num_frames_in_state`) and every preallocated backing vector is
cleared by the constructor loop. -/
def TrainedAI.mk0 (γ : Type) (fow : Bool) (c : ℕ) : TrainedAI γ :=
  { _respect_fow := fow, _recent_states := CircularQueue.empty [] c }

/-- Modelled from the spec: `TrainedAI::extract` (ai.cc, not under src/) —
"computes the current FeatureVector, pushes it into HistoryBuffer (evicting
the oldest entry if full), then copies the buffer's full window
(oldest→newest) into the outgoing payload".  Returns the updated agent and
the copied-out window. -/
def TrainedAI.extract (f : γ → List ℚ) (ta : TrainedAI γ) (g : γ) :
    TrainedAI γ × List (List ℚ) :=
  let s := f g
  let q := ta._recent_states.push s
  ({ ta with _recent_states := q }, q.window [])

/-- A whole run of `extract` calls, keeping only the agent state. -/
def TrainedAI.extractAll (f : γ → List ℚ) (ta : TrainedAI γ) : List γ → TrainedAI γ
  | [] => ta
  | g :: gs => TrainedAI.extractAll f (TrainedAI.extract f ta g).1 gs

theorem extractAll_queue (f : γ → List ℚ) (c : ℕ) (hc : 0 < c) (fow : Bool)
    (gs : List γ) :
    QInv [] c (gs.map f) ((TrainedAI.mk0 γ fow c).extractAll f gs)._recent_states := by
  suffices h : ∀ (gs : List γ) (xs : List (List ℚ)) (ta : TrainedAI γ),
      QInv [] c xs ta._recent_states →
      QInv [] c (xs ++ gs.map f) ((ta.extractAll f gs)._recent_states) by
    simpa using h gs [] (TrainedAI.mk0 γ fow c) (qinv_empty [] c hc)
  intro gs
  induction gs with
  | nil => intro xs ta hq; simpa [TrainedAI.extractAll] using hq
  | cons g t ih =>
    intro xs ta hq
    have h1 : QInv [] c (xs ++ [f g]) ((TrainedAI.extract f ta g).1)._recent_states :=
      qinv_push [] c hc xs ta._recent_states hq (f g)
    have h2 := ih (xs ++ [f g]) (TrainedAI.extract f ta g).1 h1
    simpa [TrainedAI.extractAll] using h2

/-! ### MixedAI

`class MixedAI : public AI` (src/rts/game_MC/ai.h, lines 86–188).  The two
owned `unique_ptr` sub-agents are `Option AI`; `Tick _backup_ai_tick_thres
= 0`, `int _latest_start = 0`, `float _latest_start_decay = 0`.  The
`std::cout` line for an unrecognized key is modelled as an entry appended
to `log`.  The `std::mt19937 _rng` member is modelled by passing each draw
to `GameEnd` explicitly. -/

structure MixedAI (σ : Type) where
  id : Option ℤ
  st : Option ℤ
  _backup_ai : Option (AI σ)
  _main_ai : Option (AI σ)
  _backup_ai_tick_thres : ℤ
  _latest_start : ℤ
  _latest_start_decay : ℚ
  log : List (String × String)

/-- C++ truncation toward zero, the `int` cast / `int *= float` conversion. -/
def cppTrunc (x : ℚ) : ℤ :=
  if 0 ≤ x then ⌊x⌋ else ⌈x⌉

/-- `MixedAI::_parse`: split `args` on the delimiter `|`, keep the fields
that split on `/` into exactly two parts, and collect them into a
`std::map<std::string, std::string>`: `insert` keeps the first value seen
for a key, and iteration over the map enumerates keys in increasing
lexicographic order.  The map is modelled as the key-sorted,
first-occurrence-deduplicated list of pairs. -/
def rawPairs (args : String) : List (String × String) :=
  (cmdSplit args '|').filterMap (fun item =>
    match cmdSplit item '/' with
    | [k, v] => some (k, v)
    | _ => none)

/-- `std::map::insert`: a pair whose key is already present is not inserted. -/
def insertKV (m : List (String × String)) (kv : String × String) :
    List (String × String) :=
  if m.any (fun p => p.1 = kv.1) then m else m ++ [kv]

/-- Insertion into a key-sorted list, modelling the map's iteration order. -/
def insSortedKV (kv : String × String) : List (String × String) → List (String × String)
  | [] => [kv]
  | p :: ps => if kv.1 < p.1 then kv :: p :: ps else p :: insSortedKV kv ps

/-- Sort an association list by key (all keys distinct after `insertKV`). -/
def sortKV : List (String × String) → List (String × String)
  | [] => []
  | p :: ps => insSortedKV p (sortKV ps)

/-- `MixedAI::_parse` as the loop over the resulting `std::map` observes it:
deduplicated first-wins, then enumerated in increasing key order. -/
def MixedAI._parse (args : String) : List (String × String) :=
  sortKV ((rawPairs args).foldl insertKV [])

/-- The mutable locals of the constructor loop. -/
structure ConsState (σ : Type) where
  _backup_ai : Option (AI σ)
  _latest_start : ℤ
  _latest_start_decay : ℚ
  log : List (String × String)

/-- One iteration of the constructor's `for (const auto &kv : _parse(opt.args))`
loop: `start` and `decay` go through `std::stoi` / `std::stof` (a throw
aborts construction: `none`), `backup` instantiates one of the two
recognized rule-based variants and is silent otherwise, and any other key is
logged and skipped. -/
def applyKV (sB hB : RuleBehavior σ) (st : ConsState σ) (kv : String × String) :
    Option (ConsState σ) :=
  if kv.1 = "start" then
    (stoi kv.2).map (fun n => { st with _latest_start := n })
  else if kv.1 = "decay" then
    (stof kv.2).map (fun q => { st with _latest_start_decay := q })
  else if kv.1 = "backup" then
    if kv.2 = "AI_SIMPLE" ∨ kv.2 = "ai_simple" then
      some { st with _backup_ai := some (SimpleAI sB) }
    else if kv.2 = "AI_HIT_AND_RUN" ∨ kv.2 = "ai_hit_and_run" then
      some { st with _backup_ai := some (HitAndRunAI hB) }
    else
      some st
  else
    some { st with log := st.log ++ [kv] }

/-- The whole constructor loop. -/
def runKVs (sB hB : RuleBehavior σ) (st : ConsState σ) :
    List (String × String) → Option (ConsState σ)
  | [] => some st
  | kv :: rest =>
    match applyKV sB hB st kv with
    | none => none
    | some st' => runKVs sB hB st' rest

/-- `MixedAI::MixedAI(opt)`.  A freshly constructed agent has no id and no
state bound, so the trailing `_backup_ai->SetId(id()); if (s_ptr() !=
nullptr) _backup_ai->SetState(s());` propagation is a no-op here (the spec
models binding as one-time and initially absent); `_rng.seed(time(NULL))`
has no counterpart because draws are passed explicitly. -/
def MixedAI.construct (sB hB : RuleBehavior σ) (args : String) : Option (MixedAI σ) :=
  if args = "" then
    some { id := none, st := none, _backup_ai := none, _main_ai := none,
           _backup_ai_tick_thres := 0, _latest_start := 0,
           _latest_start_decay := 0, log := [] }
  else
    match runKVs sB hB
        { _backup_ai := none, _latest_start := 0, _latest_start_decay := 0, log := [] }
        (MixedAI._parse args) with
    | none => none
    | some st =>
      some { id := none, st := none, _backup_ai := st._backup_ai, _main_ai := none,
             _backup_ai_tick_thres := 0, _latest_start := st._latest_start,
             _latest_start_decay := st._latest_start_decay, log := st.log }

/-- `MixedAI::SetMainAI`: installs/replaces the primary agent and (per the
spec) "immediately propagates the current id/state to it if already bound". -/
def MixedAI.SetMainAI (m : MixedAI σ) (a : AI σ) : MixedAI σ :=
  let a1 := match m.id with
    | some i => a.SetId i
    | none => a
  let a2 := match m.st with
    | some s => a1.SetState s
    | none => a1
  { m with _main_ai := some a2 }

/-- `MixedAI::on_set_id`: after the base class records the id, propagate it
to the backup and main sub-agents when they exist. -/
def MixedAI.on_set_id (m : MixedAI σ) : MixedAI σ :=
  match m.id with
  | some i =>
    { m with _backup_ai := m._backup_ai.map (fun b => b.SetId i),
             _main_ai := m._main_ai.map (fun a => a.SetId i) }
  | none => m

/-- `MixedAI::on_set_state`: propagate the bound state reference to both
sub-agents when they exist. -/
def MixedAI.on_set_state (m : MixedAI σ) : MixedAI σ :=
  match m.st with
  | some s =>
    { m with _backup_ai := m._backup_ai.map (fun b => b.SetState s),
             _main_ai := m._main_ai.map (fun a => a.SetState s) }
  | none => m

/-- `SetId` on the composite: the spec-modelled one-time base binding
followed by the overridden `on_set_id` propagation. -/
def MixedAI.SetId (m : MixedAI σ) (i : ℤ) : MixedAI σ :=
  match m.id with
  | none => MixedAI.on_set_id { m with id := some i }
  | some _ => m

/-- `SetState` on the composite: one-time base binding followed by the
overridden `on_set_state` propagation. -/
def MixedAI.SetState (m : MixedAI σ) (s : ℤ) : MixedAI σ :=
  match m.st with
  | none => MixedAI.on_set_state { m with st := some s }
  | some _ => m

/-- The `else` branch of `MixedAI::on_act`: `return _main_ai->Act(t, a, done);`
— a null `_main_ai` is a fatal null-pointer dereference, `none`. -/
def MixedAI.actMain (m : MixedAI σ) (t : ℤ) : Option (Bool × MixedAI σ) :=
  match m._main_ai with
  | none => none
  | some ma =>
    some ((ma.actF ma.internal t).1,
      { m with _main_ai := some { ma with internal := (ma.actF ma.internal t).2 } })

/-- `MixedAI::on_act(t, a, done)`: if a backup agent exists and
`t < _backup_ai_tick_thres`, delegate to the backup, else to the main agent.
The boolean outcome and the acting sub-agent's internal-state update are
returned; the produced command and the cancellation flag are opaque here
(they are threaded through unchanged by this dispatcher). -/
def MixedAI.on_act (m : MixedAI σ) (t : ℤ) : Option (Bool × MixedAI σ) :=
  match m._backup_ai with
  | some b =>
    if t < m._backup_ai_tick_thres then
      some ((b.actF b.internal t).1,
        { m with _backup_ai := some { b with internal := (b.actF b.internal t).2 } })
    else m.actMain t
  | none => m.actMain t

/-- `MixedAI::GameEnd(t)`: base housekeeping (`AI::GameEnd(t)`, elf/ai.h —
modelled from the spec as having no effect on the curriculum fields, its
result being discarded by the source), then `_main_ai->GameEnd(t)` (a null
main agent would be a fatal dereference), then `_latest_start *=
_latest_start_decay` (an `int *= float` compound assignment, truncating
toward zero), then `_backup_ai_tick_thres = _rng() % (int(_latest_start +
0.5) + 1)` where the draw `r` is the `uint32` produced by `_rng()` and the
`int` divisor is converted to `uint32`; a zero divisor is an undefined
`% 0`, modelled as `none`. -/
def MixedAI.GameEnd (m : MixedAI σ) (t : ℤ) (r : ℕ) : Option (Bool × MixedAI σ) :=
  match m._main_ai with
  | none => none
  | some ma =>
    let res := (ma.endF ma.internal t).1
    let ls : ℤ := cppTrunc ((m._latest_start : ℚ) * m._latest_start_decay)
    let bound : ℤ := cppTrunc ((ls : ℚ) + 1 / 2)
    let d : ℕ := ((bound + 1) % (4294967296 : ℤ)).toNat
    if d = 0 then none
    else
      some (res,
        { m with _main_ai := some { ma with internal := (ma.endF ma.internal t).2 },
                 _latest_start := ls,
                 _backup_ai_tick_thres := ((r % d : ℕ) : ℤ) })

/-- A run of `Act` calls within one episode, keeping the agent state. -/
def MixedAI.runActs (m : MixedAI σ) : List ℤ → Option (MixedAI σ)
  | [] => some m
  | t :: ts =>
    match m.on_act t with
    | none => none
    | some p => MixedAI.runActs p.2 ts

/-- A run of completed episodes: each entry is the final tick handed to
`GameEnd` together with the `_rng()` draw consumed by the resampling. -/
def MixedAI.runEpisodes (m : MixedAI σ) : List (ℤ × ℕ) → Option (MixedAI σ)
  | [] => some m
  | e :: es =>
    match m.GameEnd e.1 e.2 with
    | none => none
    | some p => MixedAI.runEpisodes p.2 es

/-- The delegation of `on_act` at tick `t` resolves to the main agent: the
negation of the guard `_backup_ai != nullptr && t < _backup_ai_tick_thres`. -/
def MixedAI.resolvesToMain (m : MixedAI σ) (t : ℤ) : Prop :=
  m._backup_ai = none ∨ m._backup_ai_tick_thres ≤ t

/-- The spec's per-episode bound, in the spec's own terms: `round(S·D^k)`
(`Mathlib`'s `round` is `⌊x + 1/2⌋`, round-half-up).  This is the
specification-side definition the code is compared against. -/
def specBound (S : ℤ) (D : ℚ) (k : ℕ) : ℤ :=
  round ((S : ℚ) * D ^ k)

/-! ### Helper lemmas about `on_act` -/

theorem on_act_resolves {σ : Type} (m : MixedAI σ) (t : ℤ)
    (h : m.resolvesToMain t) : m.on_act t = m.actMain t := by
  rcases h with h | h
  · rw [MixedAI.on_act, h]
  · cases hb : m._backup_ai with
    | none => rw [MixedAI.on_act, hb]
    | some b =>
      rw [MixedAI.on_act, hb]
      exact if_neg (by omega)

theorem actMain_preserves {σ : Type} (m m1 : MixedAI σ) (r1 : Bool) (t : ℤ)
    (h : m.actMain t = some (r1, m1)) :
    m1._backup_ai = m._backup_ai ∧
      m1._backup_ai_tick_thres = m._backup_ai_tick_thres := by
  cases hma : m._main_ai with
  | none => rw [MixedAI.actMain, hma] at h; exact absurd h (by simp)
  | some ma =>
    rw [MixedAI.actMain, hma] at h
    simp only [Option.some.injEq, Prod.mk.injEq] at h
    obtain ⟨-, h2⟩ := h
    rw [← h2]
    exact ⟨rfl, rfl⟩

theorem on_act_preserves {σ : Type} (m m1 : MixedAI σ) (r1 : Bool) (t : ℤ)
    (h : m.on_act t = some (r1, m1)) :
    m1._backup_ai_tick_thres = m._backup_ai_tick_thres := by
  cases hb : m._backup_ai with
  | none =>
    rw [MixedAI.on_act, hb] at h
    exact (actMain_preserves m m1 r1 t h).2
  | some b =>
    simp only [MixedAI.on_act, hb] at h
    by_cases hlt : t < m._backup_ai_tick_thres
    · rw [if_pos hlt] at h
      simp only [Option.some.injEq, Prod.mk.injEq] at h
      obtain ⟨-, h2⟩ := h
      rw [← h2]
    · rw [if_neg hlt] at h
      exact (actMain_preserves m m1 r1 t h).2

/-! ### Shared concrete instances used by the witnesses -/

/-- A trivial concrete behaviour over the unit internal state. -/
def trivialBeh : RuleBehavior Unit :=
  { init := (), act := fun _ _ => (true, ()), onEnd := fun _ _ => (true, ()) }

/-- A concrete main agent. -/
def demoMain : AI Unit :=
  { kind := AIKind.generic, id := none, st := none, internal := (),
    actF := fun _ _ => (true, ()), endF := fun _ _ => (true, ()) }

/-- A concrete mixed agent with both sub-agents present, threshold 2. -/
def demoM : MixedAI Unit :=
  { id := none, st := none, _backup_ai := some (SimpleAI trivialBeh),
    _main_ai := some demoMain, _backup_ai_tick_thres := 2,
    _latest_start := 2, _latest_start_decay := 1 / 2, log := [] }

/-- A concrete mixed agent with no sub-agent at all. -/
def demoNoMain : MixedAI Unit :=
  { id := none, st := none, _backup_ai := none, _main_ai := none,
    _backup_ai_tick_thres := 0, _latest_start := 0,
    _latest_start_decay := 0, log := [] }

/-- C3: for every tick `t`, if the mixing agent owns a backup agent and
`t < threshold` then `Act(t)` delegates to the backup agent and returns its
result; otherwise (no backup agent, or `t ≥ threshold`) it delegates to the
main agent and returns its result. -/
theorem mixedai_act_delegation {σ : Type} (m : MixedAI σ) (t : ℤ) :
    (∀ b, m._backup_ai = some b → t < m._backup_ai_tick_thres →
      m.on_act t = some ((b.actF b.internal t).1,
        { m with _backup_ai := some { b with internal := (b.actF b.internal t).2 } })) ∧
    (m.resolvesToMain t → m.on_act t = m.actMain t) ∧
    (∀ ma, m._main_ai = some ma → m.resolvesToMain t →
      m.on_act t = some ((ma.actF ma.internal t).1,
        { m with _main_ai := some { ma with internal := (ma.actF ma.internal t).2 } })) := by
  refine ⟨?_, on_act_resolves m t, ?_⟩
  · intro b hb hlt
    simp only [MixedAI.on_act, hb]
    rw [if_pos hlt]
  · intro ma hma hres
    rw [on_act_resolves m t hres, MixedAI.actMain, hma]

theorem mixedai_act_delegation_witness :
    (∀ b, demoM._backup_ai = some b → (1 : ℤ) < demoM._backup_ai_tick_thres →
      demoM.on_act 1 = some ((b.actF b.internal 1).1,
        { demoM with
            _backup_ai := some { b with internal := (b.actF b.internal 1).2 } })) ∧
    (demoM.resolvesToMain 1 → demoM.on_act 1 = demoM.actMain 1) ∧
    (∀ ma, demoM._main_ai = some ma → demoM.resolvesToMain 1 →
      demoM.on_act 1 = some ((ma.actF ma.internal 1).1,
        { demoM with
            _main_ai := some { ma with internal := (ma.actF ma.internal 1).2 } })) :=
  mixedai_act_delegation demoM 1

/-- C6: delegating to the main agent while no main agent has been installed
through `SetMainAI` is fatal — the call dereferences the null `_main_ai`
and produces no normal boolean result (`none`), never a silent success. -/
theorem mixedai_act_without_main_fatal {σ : Type} (m : MixedAI σ) (t : ℤ)
    (hmain : m._main_ai = none) (hres : m.resolvesToMain t) :
    m.on_act t = none := by
  rw [on_act_resolves m t hres, MixedAI.actMain, hmain]

theorem mixedai_act_without_main_fatal_witness : demoNoMain.on_act 0 = none :=
  mixedai_act_without_main_fatal demoNoMain 0 rfl (Or.inl rfl)

/-- C4: within a single episode (no `GameEnd` in between, so the threshold
is never resampled), once delegation has resolved to the main agent at tick
`t1`, it also resolves to the main agent at every later tick `t2` of the
episode — delegation never reverts to the backup agent. -/
theorem mixedai_delegation_monotone {σ : Type} (m m1 : MixedAI σ) (r1 : Bool)
    (t1 t2 : ℤ) (h1 : m.on_act t1 = some (r1, m1))
    (hres : m.resolvesToMain t1) (hlt : t1 < t2) :
    m1.resolvesToMain t2 ∧ m1.on_act t2 = m1.actMain t2 := by
  rw [on_act_resolves m t1 hres] at h1
  obtain ⟨hb, hth⟩ := actMain_preserves m m1 r1 t1 h1
  have hres2 : m1.resolvesToMain t2 := by
    rcases hres with h | h
    · exact Or.inl (hb.trans h)
    · exact Or.inr (by omega)
  exact ⟨hres2, on_act_resolves m1 t2 hres2⟩

theorem mixedai_delegation_monotone_witness :
    demoM.resolvesToMain 4 ∧ demoM.on_act 4 = demoM.actMain 4 :=
  mixedai_delegation_monotone demoM demoM true 3 4 rfl (Or.inr (by decide)) (by decide)

/-! ### Helper lemmas about `GameEnd` -/

theorem floor_half_rat : ⌊(1 / 2 : ℚ)⌋ = 0 := by
  norm_num

/-- Whenever `GameEnd` returns normally, with a nonnegative current
`_latest_start` and a nonnegative decay: the decay multiplies (and
truncates) `_latest_start`, and the resampled threshold lies between `0`
and the new `_latest_start`. -/
theorem gameEnd_step {σ : Type} (m m' : MixedAI σ) (t : ℤ) (r : ℕ) (bres : Bool)
    (hL : 0 ≤ m._latest_start) (hD0 : 0 ≤ m._latest_start_decay)
    (h : m.GameEnd t r = some (bres, m')) :
    m'._latest_start_decay = m._latest_start_decay ∧
      m'._backup_ai = m._backup_ai ∧
      m'._latest_start = ⌊(m._latest_start : ℚ) * m._latest_start_decay⌋ ∧
      0 ≤ m'._latest_start ∧
      ((m'._latest_start : ℚ) ≤ (m._latest_start : ℚ) * m._latest_start_decay) ∧
      0 ≤ m'._backup_ai_tick_thres ∧
      m'._backup_ai_tick_thres ≤ m'._latest_start := by
  cases hma : m._main_ai with
  | none => rw [MixedAI.GameEnd, hma] at h; exact absurd h (by simp)
  | some ma =>
    have hprod : 0 ≤ (m._latest_start : ℚ) * m._latest_start_decay :=
      mul_nonneg (by exact_mod_cast hL) hD0
    set ls := ⌊(m._latest_start : ℚ) * m._latest_start_decay⌋ with hlsd
    have hls0 : 0 ≤ ls := Int.floor_nonneg.mpr hprod
    have hcpp : cppTrunc ((m._latest_start : ℚ) * m._latest_start_decay) = ls := by
      rw [cppTrunc, if_pos hprod]
    have hnn : (0 : ℚ) ≤ (ls : ℚ) + 1 / 2 := by
      have : (0 : ℚ) ≤ (ls : ℚ) := by exact_mod_cast hls0
      linarith
    have hbound : cppTrunc ((ls : ℚ) + 1 / 2) = ls := by
      rw [cppTrunc, if_pos hnn, add_comm, Int.floor_add_int, floor_half_rat, zero_add]
    simp only [MixedAI.GameEnd, hma, hcpp, hbound] at h
    set d : ℕ := ((ls + 1) % (4294967296 : ℤ)).toNat with hddef
    by_cases hd : d = 0
    · rw [if_pos hd] at h
      exact absurd h (by simp)
    · rw [if_neg hd] at h
      simp only [Option.some.injEq, Prod.mk.injEq] at h
      obtain ⟨-, hm'⟩ := h
      have hd1 : 0 < d := Nat.pos_of_ne_zero hd
      have hrd : r % d < d := Nat.mod_lt r hd1
      have hdz : (d : ℤ) ≤ ls + 1 := by omega
      refine ⟨?_, ?_, ?_, ?_, ?_, ?_, ?_⟩
      · rw [← hm']
      · rw [← hm']
      · rw [← hm']
      · rw [← hm']
        exact hls0
      · rw [← hm']
        exact Int.floor_le _
      · rw [← hm']
        show (0 : ℤ) ≤ ((r % d : ℕ) : ℤ)
        exact_mod_cast Nat.zero_le _
      · rw [← hm']
        show ((r % d : ℕ) : ℤ) ≤ ls
        omega

/-- C1: `MixedAI::GameEnd(t)` calls `main.GameEnd(t)` and returns exactly its
boolean result (for every internal state of the backup agent, which it never
touches), then multiplies `_latest_start` by the decay (the `int *= float`
truncating multiply), then resamples the threshold for the next episode from
the already-decayed value — `r % (newLatestStart + 1)`.  The hypotheses pin
the configuration to the sane range (`0 ≤ start`, within `int`, decay in
`[0,1]`). -/
theorem mixedai_gameEnd_order_and_result {σ : Type} (m : MixedAI σ) (ma : AI σ)
    (hma : m._main_ai = some ma) (t : ℤ) (r : ℕ)
    (hL0 : 0 ≤ m._latest_start) (hL1 : m._latest_start < 2147483648)
    (hD0 : 0 ≤ m._latest_start_decay) (hD1 : m._latest_start_decay ≤ 1) :
    ∃ m', m.GameEnd t r = some ((ma.endF ma.internal t).1, m') ∧
      m'._backup_ai = m._backup_ai ∧
      m'._latest_start = ⌊(m._latest_start : ℚ) * m._latest_start_decay⌋ ∧
      m'._backup_ai_tick_thres = ((r % (m'._latest_start + 1).toNat : ℕ) : ℤ) := by
  have hprod : 0 ≤ (m._latest_start : ℚ) * m._latest_start_decay :=
    mul_nonneg (by exact_mod_cast hL0) hD0
  set ls := ⌊(m._latest_start : ℚ) * m._latest_start_decay⌋ with hlsd
  have hls0 : 0 ≤ ls := Int.floor_nonneg.mpr hprod
  have hcpp : cppTrunc ((m._latest_start : ℚ) * m._latest_start_decay) = ls := by
    rw [cppTrunc, if_pos hprod]
  have hlsle : ls ≤ m._latest_start := by
    have hmul : (m._latest_start : ℚ) * m._latest_start_decay ≤ (m._latest_start : ℚ) :=
      mul_le_of_le_one_right (by exact_mod_cast hL0) hD1
    calc ls ≤ ⌊(m._latest_start : ℚ)⌋ := Int.floor_mono hmul
      _ = m._latest_start := Int.floor_intCast _
  have hnn : (0 : ℚ) ≤ (ls : ℚ) + 1 / 2 := by
    have : (0 : ℚ) ≤ (ls : ℚ) := by exact_mod_cast hls0
    linarith
  have hbound : cppTrunc ((ls : ℚ) + 1 / 2) = ls := by
    rw [cppTrunc, if_pos hnn, add_comm, Int.floor_add_int, floor_half_rat, zero_add]
  have hdmod : (ls + 1) % (4294967296 : ℤ) = ls + 1 :=
    Int.emod_eq_of_lt (by omega) (by omega)
  have key : m.GameEnd t r = some ((ma.endF ma.internal t).1,
      { m with _main_ai := some { ma with internal := (ma.endF ma.internal t).2 },
               _latest_start := ls,
               _backup_ai_tick_thres := ((r % (ls + 1).toNat : ℕ) : ℤ) }) := by
    simp only [MixedAI.GameEnd, hma, hcpp, hbound, hdmod]
    rw [if_neg (by omega : ¬ (ls + 1).toNat = 0)]
  exact ⟨_, key, rfl, rfl, rfl⟩

theorem mixedai_gameEnd_order_and_result_witness :
    ∃ m', demoM.GameEnd 5 3 = some ((demoMain.endF demoMain.internal 5).1, m') ∧
      m'._backup_ai = demoM._backup_ai ∧
      m'._latest_start = ⌊(demoM._latest_start : ℚ) * demoM._latest_start_decay⌋ ∧
      m'._backup_ai_tick_thres = ((3 % (m'._latest_start + 1).toNat : ℕ) : ℤ) :=
  mixedai_gameEnd_order_and_result demoM demoMain rfl 5 3 (by decide) (by decide)
    (by norm_num [demoM]) (by norm_num [demoM])

/-- The cross-episode invariant: along any run of completed episodes the
decay is constant, `_latest_start` stays nonnegative and is bounded by
`S·D^k`, and after at least one episode the threshold lies in
`[0, _latest_start]`. -/
theorem runEpisodes_inv {σ : Type} (D : ℚ) (hD0 : 0 ≤ D) :
    ∀ (trs : List (ℤ × ℕ)) (m m' : MixedAI σ),
      m._latest_start_decay = D → 0 ≤ m._latest_start →
      m.runEpisodes trs = some m' →
      m'._latest_start_decay = D ∧ 0 ≤ m'._latest_start ∧
        ((m'._latest_start : ℚ) ≤ (m._latest_start : ℚ) * D ^ trs.length) ∧
        (1 ≤ trs.length → 0 ≤ m'._backup_ai_tick_thres ∧
          m'._backup_ai_tick_thres ≤ m'._latest_start) := by
  intro trs
  induction trs with
  | nil =>
    intro m m' hdec hL h
    simp only [MixedAI.runEpisodes, Option.some.injEq] at h
    subst h
    refine ⟨hdec, hL, by simp, fun hh => absurd hh (by simp)⟩
  | cons e es ih =>
    intro m m' hdec hL h
    simp only [MixedAI.runEpisodes] at h
    cases hge : m.GameEnd e.1 e.2 with
    | none => rw [hge] at h; exact absurd h (by simp)
    | some p =>
      rw [hge] at h
      have hstep := gameEnd_step m p.2 e.1 e.2 p.1 hL (hdec ▸ hD0) (by rw [hge])
      obtain ⟨hs1, -, -, hs4, hs5, hs6, hs7⟩ := hstep
      have hmono : ∀ x : ℚ, x ≤ (m._latest_start : ℚ) * D → x * D ^ es.length ≤
          (m._latest_start : ℚ) * D ^ (es.length + 1) := by
        intro x hx
        calc x * D ^ es.length ≤ ((m._latest_start : ℚ) * D) * D ^ es.length :=
              mul_le_mul_of_nonneg_right hx (pow_nonneg hD0 _)
          _ = (m._latest_start : ℚ) * D ^ (es.length + 1) := by ring
      cases es with
      | nil =>
        simp only [MixedAI.runEpisodes, Option.some.injEq] at h
        subst h
        refine ⟨hs1.trans hdec, hs4, ?_, fun _ => ⟨hs6, hs7⟩⟩
        simpa using (hdec ▸ hs5)
      | cons e2 es2 =>
        have ihp := ih p.2 m' (hs1.trans hdec) hs4 h
        obtain ⟨ih1, ih2, ih3, ih4⟩ := ihp
        refine ⟨ih1, ih2, ?_, fun _ => ih4 (by simp)⟩
        calc (m'._latest_start : ℚ) ≤ (p.2._latest_start : ℚ) * D ^ (e2 :: es2).length :=
              ih3
          _ ≤ (m._latest_start : ℚ) * D ^ ((e2 :: es2).length + 1) :=
              hmono _ (by rw [← hdec]; exact hs5)
          _ = (m._latest_start : ℚ) * D ^ (e :: e2 :: es2).length := by
              norm_num

/-- C2 (amended): for a mixing agent configured with `start = S` and
`decay = D` (`0 ≤ S`, `0 ≤ D ≤ 1`), after `k ≥ 1` completed episodes with no
external reset the sampled threshold lies in `[0, round(S·D^k)]`; the upper
bound `round(S·D^k)` is non-increasing from one episode to the next, and
when `D < 1` it is `0` for all sufficiently large `k` (hence tends to `0`).
(The original claim's strict decrease fails, see the counterexample.) -/
theorem mixedai_threshold_bound {σ : Type} (m : MixedAI σ)
    (hS : 0 ≤ m._latest_start) (hD0 : 0 ≤ m._latest_start_decay)
    (hD1 : m._latest_start_decay ≤ 1) :
    (∀ trs m', m.runEpisodes trs = some m' → 1 ≤ trs.length →
      0 ≤ m'._backup_ai_tick_thres ∧
        m'._backup_ai_tick_thres ≤
          specBound m._latest_start m._latest_start_decay trs.length) ∧
    (∀ k, specBound m._latest_start m._latest_start_decay (k + 1) ≤
      specBound m._latest_start m._latest_start_decay k) ∧
    (m._latest_start_decay < 1 →
      ∃ K, ∀ k, K ≤ k → specBound m._latest_start m._latest_start_decay k = 0) := by
  set S := m._latest_start with hSdef
  set D := m._latest_start_decay with hDdef
  have hSq : (0 : ℚ) ≤ (S : ℚ) := by exact_mod_cast hS
  refine ⟨?_, ?_, ?_⟩
  · intro trs m' hrun hlen
    obtain ⟨-, -, h3, h4⟩ := runEpisodes_inv D hD0 trs m m' rfl hS hrun
    obtain ⟨ht0, ht1⟩ := h4 hlen
    refine ⟨ht0, ?_⟩
    have hfloor : m'._latest_start ≤ ⌊(S : ℚ) * D ^ trs.length⌋ := Int.le_floor.mpr h3
    have hround : ⌊(S : ℚ) * D ^ trs.length⌋ ≤ specBound S D trs.length := by
      rw [specBound, round_eq]
      exact Int.floor_mono (by linarith)
    omega
  · intro k
    rw [specBound, specBound, round_eq, round_eq]
    refine Int.floor_mono ?_
    have hpow : D ^ (k + 1) ≤ D ^ k := by
      calc D ^ (k + 1) = D ^ k * D := by ring
        _ ≤ D ^ k * 1 := mul_le_mul_of_nonneg_left hD1 (pow_nonneg hD0 _)
        _ = D ^ k := by ring
    have := mul_le_mul_of_nonneg_left hpow hSq
    linarith
  · intro hDlt
    have hS1 : (0 : ℚ) < (S : ℚ) + 1 := by linarith
    have hε : (0 : ℚ) < 1 / (2 * ((S : ℚ) + 1)) := by
      apply div_pos one_pos
      linarith
    obtain ⟨n, hn⟩ := exists_pow_lt_of_lt_one hε hDlt
    refine ⟨n, fun k hk => ?_⟩
    have hDk : D ^ k ≤ D ^ n := pow_le_pow_of_le_one hD0 hD1 hk
    have hx0 : (0 : ℚ) ≤ (S : ℚ) * D ^ k := mul_nonneg hSq (pow_nonneg hD0 _)
    have hxlt : (S : ℚ) * D ^ k < 1 / 2 := by
      have h1 : (S : ℚ) * D ^ k ≤ (S : ℚ) * D ^ n := mul_le_mul_of_nonneg_left hDk hSq
      have h2 : (S : ℚ) * D ^ n ≤ (S : ℚ) * (1 / (2 * ((S : ℚ) + 1))) :=
        mul_le_mul_of_nonneg_left (le_of_lt hn) hSq
      have h3 : (S : ℚ) * (1 / (2 * ((S : ℚ) + 1))) < 1 / 2 := by
        rw [show (S : ℚ) * (1 / (2 * ((S : ℚ) + 1))) = (S : ℚ) / (2 * ((S : ℚ) + 1))
            from by ring]
        rw [div_lt_iff₀ (by linarith : (0 : ℚ) < 2 * ((S : ℚ) + 1))]
        linarith
      linarith
    rw [specBound, round_eq]
    apply Int.floor_eq_zero_iff.mpr
    rw [Set.mem_Ico]
    exact ⟨by linarith, by linarith⟩

/-- C2 (counterexample to the original claim): with `start = 10` and
`decay = 0.99 < 1`, the claimed per-episode upper bound `round(S·D^k)` does
NOT strictly decrease from episode 1 to episode 2: it is `10` at both. -/
theorem specBound_not_strictly_decreasing :
    ¬ (specBound 10 (99 / 100) 2 < specBound 10 (99 / 100) 1) := by
  norm_num [specBound, round_eq]

theorem mixedai_threshold_bound_witness :
    (∀ trs m', demoM.runEpisodes trs = some m' → 1 ≤ trs.length →
      0 ≤ m'._backup_ai_tick_thres ∧
        m'._backup_ai_tick_thres ≤
          specBound demoM._latest_start demoM._latest_start_decay trs.length) ∧
    (∀ k, specBound demoM._latest_start demoM._latest_start_decay (k + 1) ≤
      specBound demoM._latest_start demoM._latest_start_decay k) ∧
    (demoM._latest_start_decay < 1 →
      ∃ K, ∀ k, K ≤ k →
        specBound demoM._latest_start demoM._latest_start_decay k = 0) :=
  mixedai_threshold_bound demoM (by decide) (by norm_num [demoM]) (by norm_num [demoM])

/-- C5: constructing with `args = "start/10|decay/0.5|backup/ai_simple"`
yields `_latest_start = 10`, `_latest_start_decay = 0.5` and a backup agent
that is the simple rule-based variant; appending the unrecognized field
`foo/bar` changes none of these outcomes, does not abort construction, and
is logged (the modelled `std::cout` line). -/
theorem mixedai_construct_example {σ : Type} (sB hB : RuleBehavior σ) :
    (∃ m, MixedAI.construct sB hB "start/10|decay/0.5|backup/ai_simple" = some m ∧
      m._latest_start = 10 ∧ m._latest_start_decay = 1 / 2 ∧
      m._backup_ai = some (SimpleAI sB) ∧ m.log = []) ∧
    (∃ m, MixedAI.construct sB hB "start/10|decay/0.5|backup/ai_simple|foo/bar" = some m ∧
      m._latest_start = 10 ∧ m._latest_start_decay = 1 / 2 ∧
      m._backup_ai = some (SimpleAI sB) ∧ m.log = [("foo", "bar")]) := by
  constructor
  · have h1 : MixedAI.construct sB hB "start/10|decay/0.5|backup/ai_simple" =
        some { id := none, st := none, _backup_ai := some (SimpleAI sB), _main_ai := none,
               _backup_ai_tick_thres := 0, _latest_start := 10,
               _latest_start_decay := 1 / 2, log := [] } := by
      with_unfolding_all rfl
    exact ⟨_, h1, rfl, rfl, rfl, rfl⟩
  · have h2 : MixedAI.construct sB hB "start/10|decay/0.5|backup/ai_simple|foo/bar" =
        some { id := none, st := none, _backup_ai := some (SimpleAI sB), _main_ai := none,
               _backup_ai_tick_thres := 0, _latest_start := 10,
               _latest_start_decay := 1 / 2, log := [("foo", "bar")] } := by
      with_unfolding_all rfl
    exact ⟨_, h2, rfl, rfl, rfl, rfl⟩

/-! ### Helper lemmas: nothing but `GameEnd` ever changes the threshold -/

theorem construct_thres {σ : Type} (sB hB : RuleBehavior σ) (args : String)
    (m0 : MixedAI σ) (h : MixedAI.construct sB hB args = some m0) :
    m0._backup_ai_tick_thres = 0 := by
  by_cases hargs : args = ""
  · rw [MixedAI.construct, if_pos hargs, Option.some.injEq] at h
    rw [← h]
  · rw [MixedAI.construct, if_neg hargs] at h
    cases hrun : runKVs sB hB
        { _backup_ai := none, _latest_start := 0, _latest_start_decay := 0, log := [] }
        (MixedAI._parse args) with
    | none => rw [hrun] at h; exact absurd h (by simp)
    | some st =>
      rw [hrun, Option.some.injEq] at h
      rw [← h]

theorem setId_thres {σ : Type} (m : MixedAI σ) (i : ℤ) :
    (m.SetId i)._backup_ai_tick_thres = m._backup_ai_tick_thres := by
  cases hid : m.id with
  | none => simp [MixedAI.SetId, hid, MixedAI.on_set_id]
  | some j => simp [MixedAI.SetId, hid]

theorem setState_thres {σ : Type} (m : MixedAI σ) (s : ℤ) :
    (m.SetState s)._backup_ai_tick_thres = m._backup_ai_tick_thres := by
  cases hst : m.st with
  | none => simp [MixedAI.SetState, hst, MixedAI.on_set_state]
  | some j => simp [MixedAI.SetState, hst]

theorem setMainAI_thres {σ : Type} (m : MixedAI σ) (a : AI σ) :
    (m.SetMainAI a)._backup_ai_tick_thres = m._backup_ai_tick_thres := rfl

theorem runActs_thres {σ : Type} :
    ∀ (ts : List ℤ) (m m' : MixedAI σ), m.runActs ts = some m' →
      m'._backup_ai_tick_thres = m._backup_ai_tick_thres := by
  intro ts
  induction ts with
  | nil =>
    intro m m' h
    simp only [MixedAI.runActs, Option.some.injEq] at h
    rw [← h]
  | cons t ts ih =>
    intro m m' h
    simp only [MixedAI.runActs] at h
    cases hact : m.on_act t with
    | none => rw [hact] at h; exact absurd h (by simp)
    | some p =>
      rw [hact] at h
      rw [ih p.2 m' h]
      exact on_act_preserves m p.2 p.1 t (by rw [hact])

/-- C9: on a freshly constructed mixing agent the backup threshold is `0`
whatever the configured `start`, and it is only ever written inside
`GameEnd`; therefore every `Act` issued before the first `GameEnd` — after
any id/state binding, main-agent installation and any number of earlier
`Act` calls — resolves to the main agent (ticks are nonnegative), so the
scripted backup prefix can first take effect in the second episode. -/
theorem mixedai_first_episode_main {σ : Type} (sB hB : RuleBehavior σ)
    (args : String) (m0 : MixedAI σ) (h0 : MixedAI.construct sB hB args = some m0)
    (x y : ℤ) (a : AI σ) (ts : List ℤ) (m' : MixedAI σ)
    (hrun : (((m0.SetId x).SetState y).SetMainAI a).runActs ts = some m')
    (t : ℤ) (ht : 0 ≤ t) :
    m'._backup_ai_tick_thres = 0 ∧ m'.resolvesToMain t ∧
      m'.on_act t = m'.actMain t := by
  have h1 : m'._backup_ai_tick_thres = 0 := by
    rw [runActs_thres ts _ m' hrun, setMainAI_thres, setState_thres, setId_thres]
    exact construct_thres sB hB args m0 h0
  have h2 : m'.resolvesToMain t := Or.inr (by omega)
  exact ⟨h1, h2, on_act_resolves m' t h2⟩

/-- The agent produced by `construct trivialBeh trivialBeh "start/10"`. -/
def demoM0 : MixedAI Unit :=
  { id := none, st := none, _backup_ai := none, _main_ai := none,
    _backup_ai_tick_thres := 0, _latest_start := 10,
    _latest_start_decay := 0, log := [] }

theorem mixedai_first_episode_main_witness :
    (((demoM0.SetId 7).SetState 9).SetMainAI demoMain)._backup_ai_tick_thres = 0 ∧
    (((demoM0.SetId 7).SetState 9).SetMainAI demoMain).resolvesToMain 5 ∧
    (((demoM0.SetId 7).SetState 9).SetMainAI demoMain).on_act 5 =
      (((demoM0.SetId 7).SetState 9).SetMainAI demoMain).actMain 5 :=
  mixedai_first_episode_main trivialBeh trivialBeh "start/10" demoM0
    (by with_unfolding_all rfl) 7 9 demoMain [] _ rfl 5 (by decide)

/-! ### Helper lemmas about the one-time id/state bindings of a sub-agent -/

theorem AI.setId_id {σ : Type} (a : AI σ) (i : ℤ) (h : a.id = none) :
    (a.SetId i).id = some i := by
  simp [AI.SetId, h]

theorem AI.setId_st {σ : Type} (a : AI σ) (i : ℤ) : (a.SetId i).st = a.st := by
  cases h : a.id <;> simp [AI.SetId, h]

theorem AI.setState_st {σ : Type} (a : AI σ) (s : ℤ) (h : a.st = none) :
    (a.SetState s).st = some s := by
  simp [AI.SetState, h]

theorem AI.setState_id {σ : Type} (a : AI σ) (s : ℤ) : (a.SetState s).id = a.id := by
  cases h : a.st <;> simp [AI.SetState, h]

/-- C7: after `SetId(X)` and `SetState(Y)` on a freshly bound mixing agent,
every owned sub-agent that is present — backup and main — reports identity
`X` and observes state reference `Y`; and a main agent installed afterwards
through `SetMainAI`, while the bindings already exist, is bound to `X` and
`Y` immediately. -/
theorem mixedai_binding_propagates {σ : Type} (m : MixedAI σ) (x y : ℤ)
    (hid : m.id = none) (hst : m.st = none)
    (hb : ∀ b, m._backup_ai = some b → b.id = none ∧ b.st = none)
    (hm : ∀ a, m._main_ai = some a → a.id = none ∧ a.st = none) :
    (((m.SetId x).SetState y).id = some x ∧ ((m.SetId x).SetState y).st = some y) ∧
    (∀ b, m._backup_ai = some b →
      ∃ b', ((m.SetId x).SetState y)._backup_ai = some b' ∧
        b'.id = some x ∧ b'.st = some y) ∧
    (∀ a, m._main_ai = some a →
      ∃ a', ((m.SetId x).SetState y)._main_ai = some a' ∧
        a'.id = some x ∧ a'.st = some y) ∧
    (∀ a : AI σ, a.id = none → a.st = none →
      ∃ a', (((m.SetId x).SetState y).SetMainAI a)._main_ai = some a' ∧
        a'.id = some x ∧ a'.st = some y) := by
  have e1 : m.SetId x =
      { m with id := some x,
               _backup_ai := m._backup_ai.map (fun b => b.SetId x),
               _main_ai := m._main_ai.map (fun a => a.SetId x) } := by
    rw [MixedAI.SetId, hid]
    rfl
  have e2 : (m.SetId x).SetState y =
      { m with id := some x, st := some y,
               _backup_ai := (m._backup_ai.map (fun b => b.SetId x)).map
                 (fun b => b.SetState y),
               _main_ai := (m._main_ai.map (fun a => a.SetId x)).map
                 (fun a => a.SetState y) } := by
    rw [e1, MixedAI.SetState]
    show (match m.st with
      | none => MixedAI.on_set_state _
      | some _ => _) = _
    rw [hst]
    rfl
  refine ⟨?_, ?_, ?_, ?_⟩
  · rw [e2]
    exact ⟨rfl, rfl⟩
  · intro b hbb
    rw [e2]
    refine ⟨(b.SetId x).SetState y, by simp [hbb], ?_, ?_⟩
    · rw [AI.setState_id, AI.setId_id b x (hb b hbb).1]
    · exact AI.setState_st _ _ (by rw [AI.setId_st]; exact (hb b hbb).2)
  · intro a haa
    rw [e2]
    refine ⟨(a.SetId x).SetState y, by simp [haa], ?_, ?_⟩
    · rw [AI.setState_id, AI.setId_id a x (hm a haa).1]
    · exact AI.setState_st _ _ (by rw [AI.setId_st]; exact (hm a haa).2)
  · intro a ha1 ha2
    have e3 : ((((m.SetId x).SetState y).SetMainAI a))._main_ai =
        some ((a.SetId x).SetState y) := by
      rw [e2]
      rfl
    refine ⟨(a.SetId x).SetState y, e3, ?_, ?_⟩
    · rw [AI.setState_id, AI.setId_id a x ha1]
    · exact AI.setState_st _ _ (by rw [AI.setId_st]; exact ha2)

theorem mixedai_binding_propagates_witness :
    (((demoM.SetId 7).SetState 9).id = some 7 ∧
      ((demoM.SetId 7).SetState 9).st = some 9) ∧
    (∀ b, demoM._backup_ai = some b →
      ∃ b', ((demoM.SetId 7).SetState 9)._backup_ai = some b' ∧
        b'.id = some 7 ∧ b'.st = some 9) ∧
    (∀ a, demoM._main_ai = some a →
      ∃ a', ((demoM.SetId 7).SetState 9)._main_ai = some a' ∧
        a'.id = some 7 ∧ a'.st = some 9) ∧
    (∀ a : AI Unit, a.id = none → a.st = none →
      ∃ a', (((demoM.SetId 7).SetState 9).SetMainAI a)._main_ai = some a' ∧
        a'.id = some 7 ∧ a'.st = some 9) :=
  mixedai_binding_propagates demoM 7 9 rfl rfl
    (fun b hbb => by injection hbb with h; rw [← h]; exact ⟨rfl, rfl⟩)
    (fun a haa => by injection haa with h; rw [← h]; exact ⟨rfl, rfl⟩)

/-- C8: for any configured capacity `C > 0` and any sequence of `n` pushes
performed by the trained agent's `extract` calls, the temporal window copied
out by the last `extract` has length `min(n, C) ≤ C` and equals exactly the
last `min(n, C)` pushed feature vectors in oldest-to-newest order. -/
theorem trainedai_extract_window {γ : Type} (f : γ → List ℚ) (fow : Bool) (c : ℕ)
    (hc : 0 < c) (ys : List γ) (g : γ) :
    (TrainedAI.extract f ((TrainedAI.mk0 γ fow c).extractAll f ys) g).2.length =
      min (ys.length + 1) c ∧
    (TrainedAI.extract f ((TrainedAI.mk0 γ fow c).extractAll f ys) g).2.length ≤ c ∧
    (TrainedAI.extract f ((TrainedAI.mk0 γ fow c).extractAll f ys) g).2 =
      ((ys ++ [g]).map f).drop ((ys.length + 1) - c) := by
  have hq := extractAll_queue f c hc fow ys
  have hq2 := qinv_push [] c hc (ys.map f)
    ((TrainedAI.mk0 γ fow c).extractAll f ys)._recent_states hq (f g)
  obtain ⟨h1, h2, h3, h4, h5⟩ := hq2
  have hpay : (TrainedAI.extract f ((TrainedAI.mk0 γ fow c).extractAll f ys) g).2 =
      ((((TrainedAI.mk0 γ fow c).extractAll f ys)._recent_states).push (f g)).window [] :=
    rfl
  have hlen : (((((TrainedAI.mk0 γ fow c).extractAll f ys)._recent_states).push
      (f g)).window []).length = min (ys.length + 1) c := by
    rw [CircularQueue.window, List.length_map, List.length_range, h4]
    simp
  have hfeat : ys.map f ++ [f g] = (ys ++ [g]).map f := by
    simp
  refine ⟨by rw [hpay, hlen], by rw [hpay, hlen]; omega, ?_⟩
  rw [hpay, h5, hfeat]
  congr 1
  simp

/-- A witness-friendly concrete feature extractor. -/
def f0 : ℕ → List ℚ := fun n => [(n : ℚ)]

theorem trainedai_extract_window_witness :
    (TrainedAI.extract f0 ((TrainedAI.mk0 ℕ false 2).extractAll f0 [1, 2, 3]) 4).2.length =
      min (([1, 2, 3] : List ℕ).length + 1) 2 ∧
    (TrainedAI.extract f0 ((TrainedAI.mk0 ℕ false 2).extractAll f0 [1, 2, 3]) 4).2.length
      ≤ 2 ∧
    (TrainedAI.extract f0 ((TrainedAI.mk0 ℕ false 2).extractAll f0 [1, 2, 3]) 4).2 =
      ((([1, 2, 3] : List ℕ) ++ [4]).map f0).drop ((([1, 2, 3] : List ℕ).length + 1) - 2) :=
  trainedai_extract_window f0 false 2 (by decide) [1, 2, 3] 4

/-! ### Distinct keys in the parsed configuration map -/

/-- All keys of an association list are pairwise distinct (the defining
property of the `std::map` the parser builds). -/
def DKeys (l : List (String × String)) : Prop :=
  l.Pairwise (fun p q => p.1 ≠ q.1)

theorem insertKV_dkeys (m : List (String × String)) (kv : String × String)
    (h : DKeys m) : DKeys (insertKV m kv) := by
  rw [insertKV]
  split
  · exact h
  · next hany =>
    rw [DKeys, List.pairwise_append]
    refine ⟨h, List.pairwise_singleton _ _, ?_⟩
    intro p hp q hq
    simp only [List.mem_singleton] at hq
    subst hq
    simp only [List.any_eq_true, not_exists, not_and, Bool.not_eq_true] at hany
    intro he
    have := hany p hp
    simp [he] at this

theorem foldl_insertKV_dkeys :
    ∀ (l acc : List (String × String)), DKeys acc → DKeys (l.foldl insertKV acc) := by
  intro l
  induction l with
  | nil => intro acc h; exact h
  | cons kv t ih =>
    intro acc h
    exact ih (insertKV acc kv) (insertKV_dkeys acc kv h)

theorem insSortedKV_perm (kv : String × String) :
    ∀ l : List (String × String), (insSortedKV kv l).Perm (kv :: l) := by
  intro l
  induction l with
  | nil => exact List.Perm.refl _
  | cons p ps ih =>
    rw [insSortedKV]
    split
    · exact List.Perm.refl _
    · exact (ih.cons p).trans (List.Perm.swap kv p ps)

theorem sortKV_perm : ∀ l : List (String × String), (sortKV l).Perm l := by
  intro l
  induction l with
  | nil => exact List.Perm.refl _
  | cons p ps ih =>
    rw [sortKV]
    exact (insSortedKV_perm p (sortKV ps)).trans (ih.cons p)

theorem parse_dkeys (args : String) : DKeys (MixedAI._parse args) := by
  rw [MixedAI._parse]
  have hperm := sortKV_perm ((rawPairs args).foldl insertKV [])
  have hd := foldl_insertKV_dkeys (rawPairs args) [] (List.Pairwise.nil)
  exact (hperm.pairwise_iff (fun hab h => hab h.symm)).mpr hd

theorem dkeys_value_unique :
    ∀ (l : List (String × String)) (k v w : String), DKeys l →
      (k, v) ∈ l → (k, w) ∈ l → v = w := by
  intro l
  induction l with
  | nil => intro k v w _ hv _; exact absurd hv (by simp)
  | cons p ps ih =>
    intro k v w hd hv hw
    rw [DKeys, List.pairwise_cons] at hd
    obtain ⟨hp, hps⟩ := hd
    rcases List.mem_cons.mp hv with hv1 | hv1 <;> rcases List.mem_cons.mp hw with hw1 | hw1
    · rw [← hv1] at hw1
      exact (Prod.mk.injEq _ _ _ _ ▸ hw1).2.symm
    · exact absurd rfl (by have := hp (k, w) hw1; rw [← hv1] at this; exact this)
    · exact absurd rfl (by have := hp (k, v) hv1; rw [← hw1] at this; exact this)
    · exact ih k v w hps hv1 hw1

/-! ### Constructor-loop invariants -/

theorem runKVs_no_backup {σ : Type} (sB hB : RuleBehavior σ) (v : String)
    (hv1 : v ≠ "AI_SIMPLE") (hv2 : v ≠ "ai_simple")
    (hv3 : v ≠ "AI_HIT_AND_RUN") (hv4 : v ≠ "ai_hit_and_run") :
    ∀ (l : List (String × String)) (st : ConsState σ),
      (∀ w, ("backup", w) ∈ l → w = v) →
      (∀ w, ("start", w) ∈ l → (stoi w).isSome) →
      (∀ w, ("decay", w) ∈ l → (stof w).isSome) →
      st._backup_ai = none → (∀ e ∈ st.log, e.1 ≠ "backup") →
      ∃ st', runKVs sB hB st l = some st' ∧ st'._backup_ai = none ∧
        (∀ e ∈ st'.log, e.1 ≠ "backup") := by
  intro l
  induction l with
  | nil =>
    intro st _ _ _ hb hl
    exact ⟨st, rfl, hb, hl⟩
  | cons kv t ih =>
    intro st hbv hs hd hb hl
    obtain ⟨k, w⟩ := kv
    have hbv' : ∀ w', ("backup", w') ∈ t → w' = v :=
      fun w' hw' => hbv w' (List.mem_cons_of_mem _ hw')
    have hs' : ∀ w', ("start", w') ∈ t → (stoi w').isSome :=
      fun w' hw' => hs w' (List.mem_cons_of_mem _ hw')
    have hd' : ∀ w', ("decay", w') ∈ t → (stof w').isSome :=
      fun w' hw' => hd w' (List.mem_cons_of_mem _ hw')
    by_cases hk1 : k = "start"
    · subst hk1
      obtain ⟨n, hn⟩ := Option.isSome_iff_exists.mp (hs w (List.mem_cons_self _ _))
      have happ : applyKV sB hB st ("start", w) = some { st with _latest_start := n } := by
        simp [applyKV, hn]
      simp only [runKVs, happ]
      exact ih { st with _latest_start := n } hbv' hs' hd' hb hl
    · by_cases hk2 : k = "decay"
      · subst hk2
        obtain ⟨q, hq⟩ := Option.isSome_iff_exists.mp (hd w (List.mem_cons_self _ _))
        have happ : applyKV sB hB st ("decay", w) =
            some { st with _latest_start_decay := q } := by
          simp [applyKV, hq]
        simp only [runKVs, happ]
        exact ih { st with _latest_start_decay := q } hbv' hs' hd' hb hl
      · by_cases hk3 : k = "backup"
        · subst hk3
          have hwv : w = v := hbv w (List.mem_cons_self _ _)
          subst hwv
          have happ : applyKV sB hB st ("backup", w) = some st := by
            simp [applyKV, hv1, hv2, hv3, hv4]
          simp only [runKVs, happ]
          exact ih st hbv' hs' hd' hb hl
        · have happ : applyKV sB hB st (k, w) =
              some { st with log := st.log ++ [(k, w)] } := by
            simp [applyKV, hk1, hk2, hk3]
          simp only [runKVs, happ]
          refine ih { st with log := st.log ++ [(k, w)] } hbv' hs' hd' hb ?_
          intro e he
          rcases List.mem_append.mp he with he1 | he1
          · exact hl e he1
          · simp only [List.mem_singleton] at he1
            rw [he1]
            exact hk3

theorem applyKV_backup_cases {σ : Type} (sB hB : RuleBehavior σ)
    (st st2 : ConsState σ) (kv : String × String)
    (h : applyKV sB hB st kv = some st2) :
    st2._backup_ai = st._backup_ai ∨ st2._backup_ai = some (SimpleAI sB) ∨
      st2._backup_ai = some (HitAndRunAI hB) := by
  rw [applyKV] at h
  split_ifs at h with h1 h2 h3 h4 h5
  · cases hn : stoi kv.2 with
    | none => rw [hn] at h; exact absurd h (by simp)
    | some n =>
      rw [hn] at h
      simp only [Option.map_some', Option.some.injEq] at h
      rw [← h]
      exact Or.inl rfl
  · cases hq : stof kv.2 with
    | none => rw [hq] at h; exact absurd h (by simp)
    | some q =>
      rw [hq] at h
      simp only [Option.map_some', Option.some.injEq] at h
      rw [← h]
      exact Or.inl rfl
  · simp only [Option.some.injEq] at h
    rw [← h]
    exact Or.inr (Or.inl rfl)
  · simp only [Option.some.injEq] at h
    rw [← h]
    exact Or.inr (Or.inr rfl)
  · simp only [Option.some.injEq] at h
    rw [← h]
    exact Or.inl rfl
  · simp only [Option.some.injEq] at h
    rw [← h]
    exact Or.inl rfl

theorem runKVs_backup_kind {σ : Type} (sB hB : RuleBehavior σ) :
    ∀ (l : List (String × String)) (st st' : ConsState σ),
      runKVs sB hB st l = some st' →
      (∀ b, st._backup_ai = some b →
        b.kind = AIKind.simple ∨ b.kind = AIKind.hitAndRun) →
      ∀ b, st'._backup_ai = some b →
        b.kind = AIKind.simple ∨ b.kind = AIKind.hitAndRun := by
  intro l
  induction l with
  | nil =>
    intro st st' h hk
    simp only [runKVs, Option.some.injEq] at h
    rw [← h]
    exact hk
  | cons kv t ih =>
    intro st st' h hk
    simp only [runKVs] at h
    cases happ : applyKV sB hB st kv with
    | none => rw [happ] at h; exact absurd h (by simp)
    | some st2 =>
      rw [happ] at h
      refine ih st2 st' h ?_
      intro b hbb
      rcases applyKV_backup_cases sB hB st st2 kv happ with hc | hc | hc
      · exact hk b (hc ▸ hbb)
      · rw [hc] at hbb
        simp only [Option.some.injEq] at hbb
        rw [← hbb]
        exact Or.inl rfl
      · rw [hc] at hbb
        simp only [Option.some.injEq] at hbb
        rw [← hbb]
        exact Or.inr rfl

/-- C10 (amended): for every args string whose parsed key/value map sends
`backup` to a value outside the recognized set and whose `start`/`decay`
values (if any) parse, construction succeeds with no backup agent installed
and emits no unrecognized-key log message for the backup entry (the
`backup` branch is silent on unknown values); and the Lua rule-based
variant can never be selected as backup — any installed backup agent is the
simple or the hit-and-run variant.  (The original claim's unconditional
"construction succeeds" fails when another field's value makes
`std::stoi`/`std::stof` throw, see the counterexample.) -/
theorem mixedai_unrecognized_backup {σ : Type} (sB hB : RuleBehavior σ) (v : String)
    (hv1 : v ≠ "AI_SIMPLE") (hv2 : v ≠ "ai_simple")
    (hv3 : v ≠ "AI_HIT_AND_RUN") (hv4 : v ≠ "ai_hit_and_run")
    (args : String) (hmem : ("backup", v) ∈ MixedAI._parse args)
    (hstart : ∀ w, ("start", w) ∈ MixedAI._parse args → (stoi w).isSome)
    (hdecay : ∀ w, ("decay", w) ∈ MixedAI._parse args → (stof w).isSome) :
    (∃ m, MixedAI.construct sB hB args = some m ∧ m._backup_ai = none ∧
      ∀ e ∈ m.log, e.1 ≠ "backup") ∧
    (∀ (args' : String) (m' : MixedAI σ) (b : AI σ),
      MixedAI.construct sB hB args' = some m' → m'._backup_ai = some b →
      b.kind = AIKind.simple ∨ b.kind = AIKind.hitAndRun) := by
  constructor
  · by_cases hargs : args = ""
    · subst hargs
      rw [show MixedAI._parse "" = [] from by with_unfolding_all rfl] at hmem
      exact absurd hmem (by simp)
    · have hbv : ∀ w, ("backup", w) ∈ MixedAI._parse args → w = v :=
        fun w hw => dkeys_value_unique _ "backup" w v (parse_dkeys args) hw hmem
      obtain ⟨st', hrun, hb', hl'⟩ := runKVs_no_backup sB hB v hv1 hv2 hv3 hv4
        (MixedAI._parse args)
        { _backup_ai := none, _latest_start := 0, _latest_start_decay := 0, log := [] }
        hbv hstart hdecay rfl (by simp)
      have hcon : MixedAI.construct sB hB args =
          some { id := none, st := none, _backup_ai := st'._backup_ai,
                 _main_ai := none, _backup_ai_tick_thres := 0,
                 _latest_start := st'._latest_start,
                 _latest_start_decay := st'._latest_start_decay,
                 log := st'.log } := by
        rw [MixedAI.construct, if_neg hargs, hrun]
      exact ⟨_, hcon, hb', hl'⟩
  · intro args' m' b hcon hbb
    by_cases hargs' : args' = ""
    · rw [MixedAI.construct, if_pos hargs', Option.some.injEq] at hcon
      rw [← hcon] at hbb
      exact absurd hbb (by simp)
    · rw [MixedAI.construct, if_neg hargs'] at hcon
      cases hrun : runKVs sB hB
          { _backup_ai := none, _latest_start := 0, _latest_start_decay := 0, log := [] }
          (MixedAI._parse args') with
      | none => rw [hrun] at hcon; exact absurd hcon (by simp)
      | some st =>
        rw [hrun, Option.some.injEq] at hcon
        have hbb2 : st._backup_ai = some b := by rw [← hcon] at hbb; exact hbb
        exact runKVs_backup_kind sB hB (MixedAI._parse args') _ st hrun
          (fun b0 hb0 => absurd hb0 (by simp)) b hbb2

/-- C10 (counterexample to the original claim): the args string
`"backup/lua|start/oops"` contains a `backup` key with the unrecognized
value `lua`, yet construction does not succeed — `std::stoi("oops")` throws
and construction aborts (`none`). -/
theorem mixedai_unrecognized_backup_counterexample :
    ("backup", "lua") ∈ MixedAI._parse "backup/lua|start/oops" ∧
      MixedAI.construct trivialBeh trivialBeh "backup/lua|start/oops" = none := by
  constructor
  · with_unfolding_all decide
  · with_unfolding_all rfl

theorem mixedai_unrecognized_backup_witness :
    (∃ m, MixedAI.construct trivialBeh trivialBeh "backup/lua" = some m ∧
      m._backup_ai = none ∧ ∀ e ∈ m.log, e.1 ≠ "backup") ∧
    (∀ (args' : String) (m' : MixedAI Unit) (b : AI Unit),
      MixedAI.construct trivialBeh trivialBeh args' = some m' →
      m'._backup_ai = some b →
      b.kind = AIKind.simple ∨ b.kind = AIKind.hitAndRun) :=
  mixedai_unrecognized_backup trivialBeh trivialBeh "lua"
    (by decide) (by decide) (by decide) (by decide)
    "backup/lua" (by with_unfolding_all decide)
    (fun w hw => by
      rw [show MixedAI._parse "backup/lua" = [("backup", "lua")]
        from by with_unfolding_all rfl] at hw
      simp only [List.mem_singleton, Prod.mk.injEq] at hw
      exact absurd hw.1 (by decide))
    (fun w hw => by
      rw [show MixedAI._parse "backup/lua" = [("backup", "lua")]
        from by with_unfolding_all rfl] at hw
      simp only [List.mem_singleton, Prod.mk.injEq] at hw
      exact absurd hw.1 (by decide))
